/-
Verification of `streaming/base/stream.py` (MosaicML streaming `Stream` class).

We shallowly embed the Python source: Python `Optional` fields become `Option`,
Python attribute presence (`hasattr`) becomes `Option.isSome` on a field,
float64 arithmetic is modelled exactly over `ℚ`, numpy `int64` values over `ℤ`,
exceptions become an explicit `Except PyErr` result, and the filesystem is a
partial map from filenames to byte contents.  External collaborators
(the storage `download_file`, `decompress`, `get_hash`, numpy's seeded
`rng.choice`, and the shard `Reader`) are parameters of the embedded
functions, constrained only by their documented contracts.
-/
import Mathlib

namespace Streaming

/-- Python exception kinds raised by the embedded code. -/
inductive PyErr where
  | valueError (msg : String)
  | indexError
  | keyError
  | attributeError (name : String)
  | fileNotFoundError
  | runtimeError
  deriving Repr, DecidableEq

/-- Bytes of a file, abstractly. -/
abbrev Bytes := List Nat

/-- Python truthiness of an `Optional[str]`: `None` and `''` are falsy. -/
def strOptTruthy : Option String → Bool
  | none => false
  | some s => s ≠ ""

/-- Python truthiness of an `Optional[int]`: `None` and `0` are falsy. -/
def intOptTruthy : Option Int → Bool
  | none => false
  | some v => v ≠ 0

/-- Python `int(q)` / numpy `.astype(int64)`: truncation toward zero. -/
def ratTrunc (q : ℚ) : ℤ :=
  if 0 ≤ q then ⌊q⌋ else ⌈q⌉

/-- `os.path.join a b` for relative path components. -/
def pjoin (a b : String) : String :=
  if a = "" then b
  else if a.endsWith "/" then a ++ b
  else a ++ "/" ++ b

/-- Reading a Python attribute that exists only when the field is `some`:
a missing attribute raises `AttributeError`. -/
def getAttr (name : String) : Option α → Except PyErr α
  | none => .error (.attributeError name)
  | some v => .ok v

/-- The `Stream` object state.  Source fields `local` / `_local` are called
`localRoot` / `localArg` here because `local` is a Lean keyword.  A field of
type `Option` whose source counterpart is set conditionally (`proportion`,
`repeat`, `samples`, `download_retry`, `download_timeout`, `keep_zip`,
`safe_keep_zip`) is `some` exactly when the Python attribute exists. -/
structure Stream where
  remote : Option String := none
  localArg : Option String := none
  localRoot : String := ""
  split : String := ""
  _proportion : Option ℚ := none
  proportion : Option ℚ := none
  _repeat : Option ℚ := none
  repeat_ : Option ℚ := none
  _samples : Option ℤ := none
  samples : Option ℤ := none
  _download_retry : Option ℤ := none
  download_retry : Option ℤ := none
  _download_timeout : Option ℚ := none
  download_timeout : Option ℚ := none
  validate_hash : Option String := none
  _keep_zip : Option Bool := none
  keep_zip : Option Bool := none
  safe_keep_zip : Option Bool := none
  deriving Repr, DecidableEq

/-- Source line 147: `self.keep_zip or self.remote in {None, self.local}`. -/
def safeKeepZip (kz : Bool) (remote : Option String) (localRoot : String) : Bool :=
  kz || remote == none || remote == some localRoot

/-- Constructor arguments of `Stream.__init__` (all keyword-only, all default
`None`). -/
structure StreamArgs where
  remote : Option String := none
  localArg : Option String := none
  split : Option String := none
  proportion : Option ℚ := none
  repeat_ : Option ℚ := none
  samples : Option ℤ := none
  download_retry : Option ℤ := none
  download_timeout : Option ℚ := none
  validate_hash : Option String := none
  keep_zip : Option Bool := none
  deriving Repr, DecidableEq

/-- `arg is not None and arg < 0` for an optional rational argument. -/
def optNegQ : Option ℚ → Bool
  | none => false
  | some v => decide (v < 0)

/-- `arg is not None and arg < 0` for an optional integer argument. -/
def optNegZ : Option ℤ → Bool
  | none => false
  | some v => decide (v < 0)

/-- `arg is not None and arg <= 0` for an optional rational argument. -/
def optNonposQ : Option ℚ → Bool
  | none => false
  | some v => decide (v ≤ 0)

/-- `Stream.__init__` (source lines 88-147).  `tmpDir` models the fresh
directory produced by `mkdtemp()`; it is used when `local` is falsy
(`local or mkdtemp()`).  The nested validation ifs of the source become an
if-chain raising `ValueError` in source order. -/
def mkStream (args : StreamArgs) (tmpDir : String) : Except PyErr Stream :=
  if args.proportion.isSome.toNat + args.repeat_.isSome.toNat + args.samples.isSome.toNat > 1 then
    .error (.valueError "At most one of proportion, repeat, and samples may be specified")
  else if optNegQ args.proportion then
    .error (.valueError "Proportion must be non-negative")
  else if optNegQ args.repeat_ then
    .error (.valueError "Repeat must be non-negative")
  else if optNegZ args.samples then
    .error (.valueError "Samples must be non-negative")
  else if optNegZ args.download_retry then
    .error (.valueError "Download retry must be non-negative")
  else if optNonposQ args.download_timeout then
    .error (.valueError "Download timeout must be positive")
  else
    .ok { remote := args.remote
          localArg := args.localArg
          localRoot := if strOptTruthy args.localArg then args.localArg.getD "" else tmpDir
          split := args.split.getD ""
          _proportion := args.proportion
          proportion := args.proportion
          _repeat := args.repeat_
          repeat_ := args.repeat_
          _samples := args.samples
          samples := args.samples
          _download_retry := args.download_retry
          download_retry := args.download_retry
          _download_timeout := args.download_timeout
          download_timeout := args.download_timeout
          validate_hash := args.validate_hash
          _keep_zip := args.keep_zip
          keep_zip := args.keep_zip
          safe_keep_zip := args.keep_zip.map
            (fun kz => safeKeepZip kz args.remote
              (if strOptTruthy args.localArg then args.localArg.getD "" else tmpDir)) }

/-- `hasattr(stream, 'proportion')`. -/
def hasProp (s : Stream) : Bool := s.proportion.isSome

/-- `hasattr(stream, 'repeat')`. -/
def hasRep (s : Stream) : Bool := s.repeat_.isSome

/-- `hasattr(stream, 'samples')`. -/
def hasSamp (s : Stream) : Bool := s.samples.isSome

/-- Number of weighting attributes present on a stream. -/
def weightCount (s : Stream) : Nat :=
  (hasProp s).toNat + (hasRep s).toNat + (hasSamp s).toNat

/-- Per-stream body of the `validate_weights` loop (source lines 184-194). -/
def validateWeightsGo (isRel : Bool) : List Stream → Except PyErr Unit
  | [] => .ok ()
  | s :: ss =>
    if weightCount s > 1 then
      .error (.valueError "Streams must provide at most one of proportion, repeat, or samples")
    else if isRel ≠ hasProp s then
      .error (.valueError "Relative and absolute sub-dataset weights are incompatible")
    else validateWeightsGo isRel ss

/-- `Stream.validate_weights` (source lines 172-195).  `streams[0]` on an
empty sequence raises `IndexError`. -/
def validateWeights (streams : List Stream) : Except PyErr Bool :=
  match streams with
  | [] => .error .indexError
  | s0 :: _ => do
    let isRel := hasProp s0
    validateWeightsGo isRel streams
    return isRel

/-- Numpy fancy-index increment `pick_per_stream[indices] += 1`, starting from
position `i`: each position whose index is a member of `idxs` is incremented by
one (numpy's buffered `+= 1` adds one per *distinct* index).  -/
def bumpFrom (idxs : List Nat) (i : Nat) : List ℤ → List ℤ
  | [] => []
  | v :: vs => (if i ∈ idxs then v + 1 else v) :: bumpFrom idxs (i + 1) vs

/-- `pick_per_stream[indices] += 1` (source line 228). -/
def bumpPicks (idxs : List Nat) (picks : List ℤ) : List ℤ :=
  bumpFrom idxs 0 picks

/-- Source lines 249-253: write the resolved proportion, repeat and pick of
each stream back into it (`zip` truncates to the shortest list). -/
def writeBack : List Stream → List ℚ → List ℚ → List ℤ → List Stream
  | s :: ss, p :: ps, r :: rs, k :: ks =>
    { s with proportion := some p, repeat_ := some r, samples := some k }
      :: writeBack ss ps rs ks
  | _, _, _, _ => []

/-- Per-stream pick of the absolute branch (source lines 236-243), reading
`samples_per_stream[stream_id]` in lockstep; running past the end of
`samples_per_stream` raises `IndexError`. -/
def absPicks : List Stream → List ℤ → Except PyErr (List ℤ)
  | [], _ => .ok []
  | s :: ss, counts =>
    match counts with
    | [] => .error .indexError
    | c :: cs =>
      let pick : ℤ :=
        match s.repeat_ with
        | some r => ratTrunc (r * (c : ℚ))
        | none =>
          match s.samples with
          | some v => v
          | none => c
      (absPicks ss cs).map (fun rest => pick :: rest)

/-- `proportion_per_stream = np.array([stream.proportion for stream in streams])`
(source line 222).  Every stream has the attribute in the validated relative
case; `getD 0` is never reached there. -/
def streamProps (streams : List Stream) : List ℚ :=
  streams.map (fun s => s.proportion.getD 0)

/-- `proportion_per_stream /= proportion_per_stream.sum()` (source line 223). -/
def normProps (streams : List Stream) : List ℚ :=
  (streamProps streams).map (fun p => p / (streamProps streams).sum)

/-- `(samples_per_epoch * proportion_per_stream).astype(np.int64)` (source
line 224): the per-stream ideal picks as the code computes them, with
`astype` truncation. -/
def codePicks (t : ℤ) (streams : List Stream) : List ℤ :=
  (normProps streams).map (fun q => ratTrunc ((t : ℚ) * q))

/-- The ideal picks as the spec words them:
`floor(target_epoch_size * normalized_proportion)`. -/
def idealPicks (t : ℤ) (streams : List Stream) : List ℤ :=
  (normProps streams).map (fun q => ⌊(t : ℚ) * q⌋)

/-- `Stream.apply_weights` (source lines 197-255).

`choice seed n k` stands for numpy's `default_rng(seed).choice(n, k, False)`:
`k` indices drawn without replacement from `range(n)`.  Its contract (the
result has `k` distinct indices, all `< n`) is assumed where needed in the
theorems, as is numpy's `ValueError` when `k` is negative or exceeds `n`,
which we make explicit.  Float64 arithmetic is modelled exactly over `ℚ`. -/
def applyWeights (choice : Nat → Nat → Nat → List Nat) (seed : Nat)
    (streams : List Stream) (samplesPerStream : List ℤ)
    (samplesPerEpoch : Option ℤ) : Except PyErr (List Stream × ℤ) :=
  (validateWeights streams).bind fun areRelative =>
  if areRelative then
    -- Relative weighting (source lines 218-229); `if not samples_per_epoch`.
    let t : ℤ :=
      if intOptTruthy samplesPerEpoch then samplesPerEpoch.getD 0
      else samplesPerStream.sum
    let normed : List ℚ := normProps streams
    let picks0 : List ℤ := codePicks t streams
    let short : ℤ := t - picks0.sum
    if short < 0 ∨ (streams.length : ℤ) < short then
      .error (.valueError "rng.choice size out of range")
    else
      let idxs := choice seed streams.length short.toNat
      let picks := bumpPicks idxs picks0
      let repeats : List ℚ :=
        picks.zipWith (fun (k c : ℤ) => (k : ℚ) / (c : ℚ)) samplesPerStream
      .ok (writeBack streams normed repeats picks, t)
  else
    -- Absolute weighting (source lines 230-246).
    if intOptTruthy samplesPerEpoch then
      .error (.valueError "Only provide samples_per_epoch when proportionally weighting")
    else
      (absPicks streams samplesPerStream).bind fun picks =>
        let repeats : List ℚ :=
          picks.zipWith (fun (k c : ℤ) => (k : ℚ) / (c : ℚ)) samplesPerStream
        let props : List ℚ := picks.map (fun (k : ℤ) => (k : ℚ) / ((picks.sum : ℤ) : ℚ))
        .ok (writeBack streams props repeats picks, picks.sum)

/-- The resolved pick counts (`samples` attributes) of a stream list. -/
def resolvedPicks (streams : List Stream) : List ℤ :=
  streams.filterMap (fun s => s.samples)

/-- `Stream.apply_default` (source lines 149-170).  Reading a `default`
attribute that was never set (`default.download_retry` etc.) raises
`AttributeError`, like in Python. -/
def applyDefault (df : Stream) (s : Stream) : Except PyErr Stream :=
  if ¬(strOptTruthy s.remote || strOptTruthy s.localArg) then
    .error (.valueError "Remote and/or local path must be provided")
  else
    -- `if not self.split: self.split = default.split or ''`
    let s1 := if s.split = "" then { s with split := df.split } else s
    (if s1._download_retry = none then
        (getAttr "download_retry" df.download_retry).map
          (fun v => { s1 with download_retry := some v })
      else .ok s1).bind fun s2 =>
    (if s2._download_timeout = none then
        (getAttr "download_timeout" df.download_timeout).map
          (fun v => { s2 with download_timeout := some v })
      else .ok s2).bind fun s3 =>
    -- `if self.validate_hash is None: self.validate_hash = default.validate_hash or None`
    let s4 :=
      if s3.validate_hash = none then
        { s3 with validate_hash :=
            if strOptTruthy df.validate_hash then df.validate_hash else none }
      else s3
    if s4._keep_zip = none then
      (getAttr "keep_zip" df.keep_zip).map
        (fun kz => { s4 with keep_zip := some kz
                             safe_keep_zip := some (safeKeepZip kz s4.remote s4.localRoot) })
    else .ok s4

/-- Outcome of one call to the external `download_file` collaborator. -/
inductive DlOutcome where
  | success
  | notFound
  | failure (e : String)
  deriving Repr, DecidableEq

/-- Result of `Stream._download_file`: the local path, the re-raised
`FileNotFoundError`, or the aggregated `RuntimeError` carrying all recorded
errors and the last underlying cause (`from errors[-1]`). -/
inductive DlResult where
  | ok (path : String)
  | fileNotFound
  | aggregated (errors : List String) (cause : String)
  deriving Repr, DecidableEq

/-- The `for _ in range(1 + self.download_retry)` loop of `_download_file`
(source lines 275-283).  `attempt i` is the outcome of the `i`-th call to the
external `download_file`; the value is (number of calls made, recorded errors,
whether `FileNotFoundError` was re-raised). -/
def dlLoop (attempt : Nat → DlOutcome) : Nat → Nat → List String → Nat × List String × Bool
  | _, 0, errs => (0, errs, false)
  | i, fuel + 1, errs =>
    match attempt i with
    | .success => (1, errs, false)
    | .notFound => (1, errs, true)
    | .failure e =>
      let r := dlLoop attempt (i + 1) fuel (errs ++ [e])
      (r.1 + 1, r.2)

/-- `Stream._download_file` (source lines 257-289), with the number of calls
made to the external download operation as first component. -/
def downloadFile (retry : Nat) (attempt : Nat → DlOutcome)
    (localRoot split basename : String) : Nat × DlResult :=
  let localPath := pjoin (pjoin localRoot split) basename
  let r := dlLoop attempt 0 (1 + retry) []
  let attempts := r.1
  let errs := r.2.1
  let raisedNotFound := r.2.2
  if raisedNotFound then (attempts, .fileNotFound)
  else if retry < errs.length then (attempts, .aggregated errs (errs.getLastD ""))
  else (attempts, .ok localPath)

/-- The local filesystem: a partial map from filename to contents. -/
abbrev FS := String → Option Bytes

/-- Write (create or overwrite) a file. -/
def fsSet (fs : FS) (name : String) (data : Bytes) : FS :=
  fun n => if n = name then some data else fs n

/-- Delete a file from the map. -/
def fsErase (fs : FS) (name : String) : FS :=
  fun n => if n = name then none else fs n

/-- Metadata of one physical shard file: basename plus the digest dictionary
(`hashes[alg]` raises `KeyError` when absent). -/
structure FileInfo where
  basename : String
  hashes : String → Option Bytes

/-- `Stream._decompress_shard_part` (source lines 291-318).  `getHash` and
`decomp` are the external hashing and decompression collaborators.  The
write-to-temp-then-`os.rename` pair becomes erase-tmp/set-raw on the map;
`os.remove` on a missing file raises `FileNotFoundError`. -/
def decompressShardPart (getHash : String → Bytes → Bytes)
    (decomp : Option String → Bytes → Bytes) (s : Stream) (zipInfo : FileInfo)
    (zipFilename rawFilename : String) (compression : Option String)
    (fs : FS) : Except PyErr FS :=
  -- `data = open(zip_filename, 'rb').read()`
  match fs zipFilename with
  | none => .error .fileNotFoundError
  | some data =>
    -- `if self.validate_hash:` (truthiness of Optional[str])
    let check : Except PyErr Unit :=
      if strOptTruthy s.validate_hash then
        match zipInfo.hashes (s.validate_hash.getD "") with
        | none => .error .keyError
        | some expected =>
          if getHash (s.validate_hash.getD "") data ≠ expected then
            .error (.valueError "Checksum failure")
          else .ok ()
      else .ok ()
    check.bind fun _ =>
      let raw := decomp compression data
      let tmpFilename := rawFilename ++ ".tmp"
      let fs1 := fsSet fs tmpFilename raw
      let fs2 := fsSet (fsErase fs1 tmpFilename) rawFilename raw
      -- `if not self.keep_zip and self.remote != self.local: os.remove(...)`
      (getAttr "keep_zip" s.keep_zip).bind fun kz =>
        if ¬kz ∧ s.remote ≠ some s.localRoot then
          match fs2 zipFilename with
          | none => .error .fileNotFoundError
          | some _ => .ok (fsErase fs2 zipFilename)
        else .ok fs2

/-- A parsed index file `{'version': ..., 'shards': [...]}` with shard
entries of type `α` (source line 388 has already parsed the JSON). -/
structure IndexObj (α : Type) where
  version : ℤ
  shards : List α

/-- The parse-and-construct part of `Stream.get_shards` (source lines
387-398), once the index file is available locally.  `readerFromJson` is the
external shard-construction capability, keyed by local root, split and the
entry. -/
def loadIndexShards (readerFromJson : String → String → α → β)
    (localRoot split : String) (obj : IndexObj α) : Except PyErr (List β) :=
  if obj.version ≠ 2 then
    .error (.valueError "Unsupported version")
  else .ok (obj.shards.map (readerFromJson localRoot split))

/-- `Stream.init_local_dir` (source lines 400-422).  `ls` is the file set
collected by the single directory walk; each shard is represented by its
external reconciliation capability `init_local_dir(ls, keep_zip) -> bool`. -/
def initLocalDir (s : Stream) (ls : List String)
    (shards : List (List String → Bool → Bool)) : Except PyErr (List Bool) :=
  (getAttr "safe_keep_zip" s.safe_keep_zip).map fun safe =>
    shards.map (fun f => f ls safe)

/-! ### Lemmas about weight validation -/

theorem validateWeightsGo_ok_mem {isRel : Bool} {l : List Stream}
    (h : validateWeightsGo isRel l = .ok ()) :
    ∀ s ∈ l, hasProp s = isRel ∧ weightCount s ≤ 1 := by
  induction l with
  | nil => intro s hs; cases hs
  | cons a l ih =>
    intro s hs
    rw [validateWeightsGo] at h
    split at h
    · cases h
    · split at h
      · cases h
      · rcases List.mem_cons.mp hs with rfl | hs
        · refine ⟨?_, by omega⟩
          rename_i h1 h2
          simpa using (not_ne_iff.mp h2).symm
        · exact ih h s hs

theorem validateWeightsGo_error_shape {isRel : Bool} {l : List Stream} {e : PyErr}
    (h : validateWeightsGo isRel l = .error e) : ∃ m, e = .valueError m := by
  induction l with
  | nil => rw [validateWeightsGo] at h; cases h
  | cons a l ih =>
    rw [validateWeightsGo] at h
    split at h
    · exact ⟨_, (Except.error.injEq _ _).mp h.symm⟩
    · split at h
      · exact ⟨_, (Except.error.injEq _ _).mp h.symm⟩
      · exact ih h

theorem validateWeightsGo_ok_of_uniform {isRel : Bool} {l : List Stream}
    (h : ∀ s ∈ l, hasProp s = isRel ∧ weightCount s ≤ 1) :
    validateWeightsGo isRel l = .ok () := by
  induction l with
  | nil => rfl
  | cons a l ih =>
    obtain ⟨ha1, ha2⟩ := h a (by simp)
    rw [validateWeightsGo, if_neg (by omega), if_neg (by simp [ha1])]
    exact ih fun s hs => h s (List.mem_cons_of_mem a hs)

theorem validateWeightsGo_bad_stream (isRel : Bool) {l : List Stream} {s : Stream}
    (hs : s ∈ l) (hbad : 2 ≤ weightCount s) :
    ∃ m, validateWeightsGo isRel l = .error (.valueError m) := by
  induction l with
  | nil => cases hs
  | cons a l ih =>
    rw [validateWeightsGo]
    split
    · exact ⟨_, rfl⟩
    · split
      · exact ⟨_, rfl⟩
      · rcases List.mem_cons.mp hs with rfl | hs
        · omega
        · exact ih hs

/-- C10: `validate_weights` reads `streams[0]` unconditionally, and
`apply_weights` calls it first, so on an empty stream sequence both raise
`IndexError` (not a `ValueError`-style validation failure). -/
theorem empty_streams_index_error (choice : Nat → Nat → Nat → List Nat)
    (seed : Nat) (counts : List ℤ) (spe : Option ℤ) :
    validateWeights [] = .error .indexError ∧
      applyWeights choice seed [] counts spe = .error .indexError := by
  exact ⟨rfl, rfl⟩

/-- C8: after the index is available and parsed, `get_shards` fails with a
`ValueError` whenever the declared version is not exactly 2, and for version 2
constructs one shard per entry, in index order, via the external
shard-construction capability keyed by local root, split and entry. -/
theorem get_shards_version_check {α β : Type} (mk : String → String → α → β)
    (localRoot split : String) (obj : IndexObj α) :
    (obj.version ≠ 2 → ∃ m, loadIndexShards mk localRoot split obj = .error (.valueError m)) ∧
      (obj.version = 2 →
        loadIndexShards mk localRoot split obj = .ok (obj.shards.map (mk localRoot split))) := by
  constructor
  · intro h
    refine ⟨"Unsupported version", ?_⟩
    unfold loadIndexShards
    rw [if_pos h]
  · intro h
    unfold loadIndexShards
    rw [if_neg (by simp [h])]

/-- Witness for C8 at a concrete index object. -/
theorem get_shards_version_check_witness :
    loadIndexShards (fun r sp (n : Nat) => r ++ sp ++ toString n) "/c" "tr"
        ⟨2, [5, 7]⟩ = .ok ["/c" ++ "tr" ++ "5", "/c" ++ "tr" ++ "7"] := by
  exact (get_shards_version_check (fun r sp (n : Nat) => r ++ sp ++ toString n)
    "/c" "tr" ⟨2, [5, 7]⟩).2 rfl

/-- C6: at most one of the weighting variants may be active: the constructor
fails when more than one argument is supplied; any stream it returns carries
at most one variant; and `validate_weights` fails with a `ValueError` whenever
some stream of the cohort carries more than one variant. -/
theorem at_most_one_weight_variant (args : StreamArgs) (tmpDir : String)
    (streams : List Stream) (s : Stream) :
    (2 ≤ args.proportion.isSome.toNat + args.repeat_.isSome.toNat + args.samples.isSome.toNat →
      ∃ m, mkStream args tmpDir = .error (.valueError m)) ∧
      (∀ st, mkStream args tmpDir = .ok st → weightCount st ≤ 1) ∧
      (s ∈ streams → 2 ≤ weightCount s →
        ∃ m, validateWeights streams = .error (.valueError m)) := by
  refine ⟨?_, ?_, ?_⟩
  · intro h
    refine ⟨"At most one of proportion, repeat, and samples may be specified", ?_⟩
    unfold mkStream
    rw [if_pos (by omega)]
  · intro st hst
    unfold mkStream at hst
    repeat' split at hst
    all_goals cases hst
    all_goals simp only [weightCount, hasProp, hasRep, hasSamp]
    all_goals omega
  · intro hs hbad
    obtain ⟨a, l, rfl⟩ : ∃ a l, streams = a :: l := by
      cases streams with
      | nil => cases hs
      | cons a l => exact ⟨a, l, rfl⟩
    obtain ⟨m, hm⟩ := validateWeightsGo_bad_stream (hasProp a) hs hbad
    refine ⟨m, ?_⟩
    simp only [validateWeights, bind, Except.bind, hm]

/-- Witness for C6: two supplied variants are rejected; a valid construction
has at most one; a cohort holding a two-variant stream is rejected. -/
theorem at_most_one_weight_variant_witness :
    (∃ m, mkStream { proportion := some (1/2 : ℚ), samples := some 7 } "/t" =
        .error (.valueError m)) ∧
      weightCount { proportion := some (1/2 : ℚ) } ≤ 1 ∧
      (∃ m, validateWeights [{ repeat_ := some 2, samples := some 7 }] =
        .error (.valueError m)) := by
  refine ⟨(at_most_one_weight_variant { proportion := some (1/2 : ℚ), samples := some 7 }
      "/t" [] {}).1 (by decide), ?_, ?_⟩
  · exact (at_most_one_weight_variant { proportion := some (1/2 : ℚ) } "/t" [] {}).2.1
      { proportion := some (1/2 : ℚ), _proportion := some (1/2 : ℚ), localRoot := "/t" }
      (by simp [mkStream, optNegQ, optNegZ, optNonposQ, strOptTruthy])
  · exact (at_most_one_weight_variant {} "/t"
      [{ repeat_ := some 2, samples := some 7 }] { repeat_ := some 2, samples := some 7 }).2.2
      (by simp) (by decide)

/-- C7: when `validate_weights` returns, its value says whether every stream
carries a proportion (relative weighting); and whenever the cohort mixes
relative and absolute styles (one stream has a proportion and another does
not), it fails with a `ValueError`. -/
theorem validate_weights_style (streams : List Stream) (b : Bool) :
    (validateWeights streams = .ok b → b = streams.all hasProp) ∧
      ((∃ s ∈ streams, hasProp s) → (∃ s ∈ streams, ¬hasProp s) →
        ∃ m, validateWeights streams = .error (.valueError m)) := by
  constructor
  · intro h
    cases streams with
    | nil => cases h
    | cons a l =>
      simp only [validateWeights, bind, Except.bind] at h
      cases hgo : validateWeightsGo (hasProp a) (a :: l) with
      | error e => rw [hgo] at h; cases h
      | ok u =>
        rw [hgo] at h
        injection h with h
        subst h
        have hmem := validateWeightsGo_ok_mem hgo
        cases hb : hasProp a with
        | false =>
          have hall : (a :: l).all hasProp = false := by
            simp only [List.all_cons, hb, Bool.false_and]
          rw [hall]
        | true =>
          have hall : (a :: l).all hasProp = true := by
            rw [List.all_eq_true]
            intro s hs
            have h1 := (hmem s hs).1
            rw [hb] at h1
            exact h1
          rw [hall]
  · intro ⟨sp, hsp, hp⟩ ⟨sa, hsa, ha⟩
    cases streams with
    | nil => cases hsp
    | cons a l =>
      cases hgo : validateWeightsGo (hasProp a) (a :: l) with
      | ok u =>
        have hmem := validateWeightsGo_ok_mem hgo
        have h1 := (hmem sp hsp).1
        have h2 := (hmem sa hsa).1
        rw [hp] at h1
        rw [Bool.not_eq_true] at ha
        rw [ha] at h2
        rw [← h1] at h2
        cases h2
      | error e =>
        obtain ⟨m, hm⟩ := validateWeightsGo_error_shape hgo
        refine ⟨m, ?_⟩
        simp only [validateWeights, bind, Except.bind, hgo, hm]

/-- Witness for C7: a uniform relative cohort returns `true`; a mixed cohort
fails. -/
theorem validate_weights_style_witness :
    (validateWeights [{ proportion := some (1/2 : ℚ) }] = .ok true →
      true = List.all [{ proportion := some (1/2 : ℚ) }] hasProp) ∧
      (∃ m, validateWeights [{ proportion := some (1/2 : ℚ) }, { samples := some 3 }] =
        .error (.valueError m)) := by
  constructor
  · exact (validate_weights_style [{ proportion := some (1/2 : ℚ) }] true).1
  · exact (validate_weights_style
      [{ proportion := some (1/2 : ℚ) }, { samples := some 3 }] true).2
      ⟨{ proportion := some (1/2 : ℚ) }, by simp, by decide⟩
      ⟨{ samples := some 3 }, by simp, by decide⟩

/-! ### Lemmas about the download retry loop -/

theorem dlLoop_attempts_le (attempt : Nat → DlOutcome) :
    ∀ (fuel i : Nat) (errs : List String), (dlLoop attempt i fuel errs).1 ≤ fuel := by
  intro fuel
  induction fuel with
  | zero => intro i errs; simp [dlLoop]
  | succ n ih =>
    intro i errs
    rw [dlLoop]
    cases attempt i with
    | success => simp
    | notFound => simp
    | failure e => simpa using Nat.succ_le_succ (ih (i + 1) (errs ++ [e]))

theorem dlLoop_all_fail (attempt : Nat → DlOutcome) (f : Nat → String) :
    ∀ (fuel i : Nat) (errs : List String),
      (∀ k, k < fuel → attempt (i + k) = .failure (f (i + k))) →
      dlLoop attempt i fuel errs = (fuel, errs ++ (List.range' i fuel).map f, false) := by
  intro fuel
  induction fuel with
  | zero => intro i errs _; simp [dlLoop]
  | succ n ih =>
    intro i errs h
    have h0 : attempt i = .failure (f i) := by simpa using h 0 (Nat.succ_pos n)
    rw [dlLoop, h0]
    dsimp only
    rw [ih (i + 1) (errs ++ [f i])
      (fun k hk => by
        have := h (k + 1) (by omega)
        rwa [show i + (k + 1) = i + 1 + k by omega] at this)]
    simp [List.range'_succ]

theorem dlLoop_stops (attempt : Nat → DlOutcome) (f : Nat → String) (o : DlOutcome)
    (ho : o = .success ∨ o = .notFound) :
    ∀ (fuel i j : Nat) (errs : List String),
      j < fuel →
      (∀ k, k < j → attempt (i + k) = .failure (f (i + k))) →
      attempt (i + j) = o →
      dlLoop attempt i fuel errs =
        (j + 1, errs ++ (List.range' i j).map f, o == DlOutcome.notFound) := by
  intro fuel
  induction fuel with
  | zero => intro i j errs h; omega
  | succ n ih =>
    intro i j errs hj hpre hstop
    cases j with
    | zero =>
      simp only [Nat.add_zero] at hstop
      rw [dlLoop, hstop]
      rcases ho with rfl | rfl <;> simp
    | succ m =>
      have h0 : attempt i = .failure (f i) := by simpa using hpre 0 (Nat.succ_pos m)
      rw [dlLoop, h0]
      dsimp only
      rw [ih (i + 1) m (errs ++ [f i]) (by omega)
        (fun k hk => by
          have := hpre (k + 1) (by omega)
          rwa [show i + (k + 1) = i + 1 + k by omega] at this)
        (by rwa [show i + 1 + m = i + (m + 1) by omega])]
      simp [List.range'_succ]

theorem getLastD_concat (l : List String) (a d : String) :
    (l ++ [a]).getLastD d = a := by
  induction l with
  | nil => rfl
  | cons b l ih => simp [List.getLastD, ih]

/-- C2: `_download_file` makes at most `1 + download_retry` calls to the
external download; a not-found outcome on attempt `j` stops immediately after
`j + 1` calls and re-raises; a success on attempt `j` stops after `j + 1`
calls and returns the composed path `local/split/basename`; and when every
attempt fails otherwise, all `1 + retry` attempts are made and the aggregated
error holds every recorded error with the last one as cause. -/
theorem download_file_retry (retry j : Nat) (attempt : Nat → DlOutcome)
    (f : Nat → String) (localRoot split basename : String) :
    (downloadFile retry attempt localRoot split basename).1 ≤ 1 + retry ∧
      (j ≤ retry → (∀ k, k < j → attempt k = .failure (f k)) → attempt j = .notFound →
        downloadFile retry attempt localRoot split basename = (j + 1, .fileNotFound)) ∧
      (j ≤ retry → (∀ k, k < j → attempt k = .failure (f k)) → attempt j = .success →
        downloadFile retry attempt localRoot split basename =
          (j + 1, .ok (pjoin (pjoin localRoot split) basename))) ∧
      ((∀ k, k ≤ retry → attempt k = .failure (f k)) →
        downloadFile retry attempt localRoot split basename =
          (1 + retry, .aggregated ((List.range (1 + retry)).map f) (f retry))) := by
  refine ⟨?_, ?_, ?_, ?_⟩
  · simp only [downloadFile]
    have h := dlLoop_attempts_le attempt (1 + retry) 0 []
    split
    · exact h
    · split
      · exact h
      · exact h
  · intro hj hpre hnf
    simp only [downloadFile]
    rw [dlLoop_stops attempt f .notFound (Or.inr rfl) (1 + retry) 0 j []
      (by omega) (by simpa using hpre) (by simpa using hnf)]
    simp
  · intro hj hpre hsucc
    simp only [downloadFile]
    rw [dlLoop_stops attempt f .success (Or.inl rfl) (1 + retry) 0 j []
      (by omega) (by simpa using hpre) (by simpa using hsucc)]
    have hnl : ¬retry < j := by omega
    simp [hnl]
  · intro hall
    simp only [downloadFile]
    rw [dlLoop_all_fail attempt f (1 + retry) 0 []
      (fun k hk => by simpa using hall k (by omega))]
    have hr : List.range' 0 (1 + retry) = List.range (1 + retry) := by
      simpa using (List.range_eq_range' (1 + retry)).symm
    have hsplit : List.range (1 + retry) = List.range retry ++ [retry] := by
      rw [Nat.add_comm]
      exact List.range_succ retry
    have hlt : retry < 1 + retry := by omega
    simp only [List.nil_append, hr, hsplit, List.map_append, List.map_cons,
      List.map_nil, getLastD_concat]
    simp [hlt]

/-- Witness for C2, reproducing the spec's test: retry=2 with an
always-failing (non-not-found) download makes exactly 3 attempts and fails
with the aggregated error; a not-found first attempt makes exactly 1. -/
theorem download_file_retry_witness :
    downloadFile 2 (fun i => .failure (toString i)) "/c" "tr" "x.mds" =
      (1 + 2, .aggregated ((List.range (1 + 2)).map toString) (toString 2)) ∧
      downloadFile 2 (fun _ => DlOutcome.notFound) "/c" "tr" "x.mds" =
        (0 + 1, .fileNotFound) := by
  constructor
  · exact (download_file_retry 2 0 (fun i => .failure (toString i)) toString
      "/c" "tr" "x.mds").2.2.2 (fun k _ => rfl)
  · exact (download_file_retry 2 0 (fun _ => DlOutcome.notFound) toString
      "/c" "tr" "x.mds").2.1 (by omega) (fun k hk => by omega) rfl

/-! ### Lemmas about shard decompression -/

theorem getAttr_ok {α : Type} {n : String} {o : Option α} {v : α} :
    getAttr n o = .ok v ↔ o = some v := by
  cases o <;> simp [getAttr]

/-- Success shape of `_decompress_shard_part`: on success the zip file existed,
the `keep_zip` attribute existed, the raw file was materialised via the
temp-write/rename pair, and the zip file was removed exactly when
`not keep_zip and remote != local`. -/
theorem decompressShardPart_ok_shape {getHash : String → Bytes → Bytes}
    {decomp : Option String → Bytes → Bytes} {s : Stream} {zipInfo : FileInfo}
    {zfn rfn : String} {comp : Option String} {fs fs' : FS}
    (h : decompressShardPart getHash decomp s zipInfo zfn rfn comp fs = .ok fs') :
    ∃ data kz, fs zfn = some data ∧ s.keep_zip = some kz ∧
      fs' = (if ¬kz ∧ s.remote ≠ some s.localRoot
        then fsErase (fsSet (fsErase (fsSet fs (rfn ++ ".tmp") (decomp comp data))
          (rfn ++ ".tmp")) rfn (decomp comp data)) zfn
        else fsSet (fsErase (fsSet fs (rfn ++ ".tmp") (decomp comp data))
          (rfn ++ ".tmp")) rfn (decomp comp data)) := by
  unfold decompressShardPart at h
  cases hfz : fs zfn with
  | none => rw [hfz] at h; cases h
  | some data =>
    rw [hfz] at h
    dsimp only at h
    simp only [Except.bind] at h
    refine ⟨data, ?_⟩
    split at h
    · cases h
    · split at h
      · cases h
      · rename_i kz hkz
        refine ⟨kz, rfl, getAttr_ok.mp hkz, ?_⟩
        split at h
        · rename_i hc
          split at h
          · cases h
          · rw [if_pos hc]
            injection h with h
            exact h.symm
        · rename_i hnc
          rw [if_neg hnc]
          injection h with h
          exact h.symm

/-- C5: after `_decompress_shard_part` succeeds, with `keep_zip` false and
remote different from local the compressed file no longer exists locally,
and with remote equal to local it is preserved (hypotheses `hzr`/`hzt` say
the zip file is neither the raw file nor the temp file, which holds for
distinct shard basenames). -/
theorem decompress_zip_removal (getHash : String → Bytes → Bytes)
    (decomp : Option String → Bytes → Bytes) (s : Stream) (zipInfo : FileInfo)
    (zfn rfn : String) (comp : Option String) (fs fs' : FS)
    (hok : decompressShardPart getHash decomp s zipInfo zfn rfn comp fs = .ok fs')
    (hzr : zfn ≠ rfn) (hzt : zfn ≠ rfn ++ ".tmp") :
    (s.keep_zip = some false → s.remote ≠ some s.localRoot → fs' zfn = none) ∧
      (s.remote = some s.localRoot → fs' zfn = fs zfn) := by
  obtain ⟨data, kz, hdata, hkz, hshape⟩ := decompressShardPart_ok_shape hok
  constructor
  · intro hkzf hrem
    rw [hkz] at hkzf
    injection hkzf with hkzf
    subst hkzf
    rw [hshape, if_pos ⟨by simp, hrem⟩]
    simp [fsErase]
  · intro hrem
    rw [hshape, if_neg (fun hc => hc.2 hrem)]
    simp [fsSet, fsErase, hzr, hzt]

/-- Concrete stream for the C5 witness: remote differs from local. -/
def c5stream : Stream := { remote := some "s3://b", localRoot := "/c", keep_zip := some false }

/-- Concrete stream for the C5 witness: remote equals local. -/
def c5streamLocal : Stream := { remote := some "/c", localRoot := "/c", keep_zip := some false }

/-- Concrete filesystem holding only the compressed shard file. -/
def c5fs : FS := fun n => if n = "shard.mds.zstd" then some [7] else none

/-- Concrete file info for the C5 witness. -/
def c5zi : FileInfo := ⟨"shard.mds.zstd", fun _ => none⟩

/-- Identity decompression collaborator for witnesses. -/
def c5decomp : Option String → Bytes → Bytes := fun _ d => d

/-- Trivial hashing collaborator for witnesses. -/
def c5hash : String → Bytes → Bytes := fun _ _ => []

/-- Resulting filesystem when the zip is removed (remote differs from local). -/
def c5fsAfter : FS :=
  fsErase (fsSet (fsErase (fsSet c5fs ("shard.mds" ++ ".tmp") [7])
    ("shard.mds" ++ ".tmp")) "shard.mds" [7]) "shard.mds.zstd"

/-- Resulting filesystem when the zip is kept (remote equals local). -/
def c5fsAfterLocal : FS :=
  fsSet (fsErase (fsSet c5fs ("shard.mds" ++ ".tmp") [7])
    ("shard.mds" ++ ".tmp")) "shard.mds" [7]

/-- Witness for C5 at a concrete decompression. -/
theorem decompress_zip_removal_witness :
    c5fsAfter "shard.mds.zstd" = none ∧
      c5fsAfterLocal "shard.mds.zstd" = c5fs "shard.mds.zstd" := by
  constructor
  · exact (decompress_zip_removal c5hash c5decomp c5stream c5zi
      "shard.mds.zstd" "shard.mds" none c5fs c5fsAfter rfl
      (by decide) (by decide)).1 rfl (by decide)
  · exact (decompress_zip_removal c5hash c5decomp c5streamLocal c5zi
      "shard.mds.zstd" "shard.mds" none c5fs c5fsAfterLocal rfl
      (by decide) (by decide)).2 rfl

/-- C9: the deletion decision in `_decompress_shard_part` uses the plain
`keep_zip` flag and the test `remote != local`, not `safe_keep_zip`: with no
remote (`remote is None`) and `keep_zip` false the compressed file is deleted
after decompression, even though `safe_keep_zip` is `true` in exactly that
situation; `safe_keep_zip` is consulted by `init_local_dir`, which passes it
to every shard's reconciliation capability. -/
theorem safe_keep_zip_unused_in_decompress (getHash : String → Bytes → Bytes)
    (decomp : Option String → Bytes → Bytes) (s : Stream) (zipInfo : FileInfo)
    (zfn rfn : String) (comp : Option String) (fs fs' : FS) (s2 : Stream)
    (ls : List String) (shards : List (List String → Bool → Bool)) (b : Bool)
    (hok : decompressShardPart getHash decomp s zipInfo zfn rfn comp fs = .ok fs')
    (hrem : s.remote = none) (hkz : s.keep_zip = some false)
    (hs2 : s2.safe_keep_zip = some b) :
    fs' zfn = none ∧ safeKeepZip false none s.localRoot = true ∧
      initLocalDir s2 ls shards = .ok (shards.map (fun g => g ls b)) := by
  obtain ⟨data, kz, hdata, hkz2, hshape⟩ := decompressShardPart_ok_shape hok
  rw [hkz] at hkz2
  injection hkz2 with hkz2
  refine ⟨?_, rfl, ?_⟩
  · rw [hshape, if_pos ⟨by simp [← hkz2], by rw [hrem]; exact fun hc => Option.noConfusion hc⟩]
    simp [fsErase]
  · simp [initLocalDir, hs2, getAttr, Except.map]

/-- Concrete stream for the C9 witness: no remote, keep_zip false. -/
def c9stream : Stream := { remote := none, localRoot := "/c", keep_zip := some false }

/-- Resulting filesystem for the C9 witness: the zip is removed. -/
def c9fsAfter : FS :=
  fsErase (fsSet (fsErase (fsSet c5fs ("shard.mds" ++ ".tmp") [7])
    ("shard.mds" ++ ".tmp")) "shard.mds" [7]) "shard.mds.zstd"

/-- Witness for C9 at a concrete decompression with no remote. -/
theorem safe_keep_zip_unused_in_decompress_witness :
    c9fsAfter "shard.mds.zstd" = none ∧ safeKeepZip false none "/c" = true ∧
      initLocalDir { safe_keep_zip := some true } ["f"] [fun _ b => b] =
        .ok [true] := by
  exact safe_keep_zip_unused_in_decompress c5hash c5decomp c9stream c5zi
    "shard.mds.zstd" "shard.mds" none c5fs c9fsAfter
    { safe_keep_zip := some true } ["f"] [fun _ b => b] true rfl
    rfl rfl rfl

/-! ### Lemmas about defaulting -/

theorem bindOk_iff {α β : Type} {e : Except PyErr α} {f : α → Except PyErr β} {b : β} :
    e.bind f = .ok b ↔ ∃ a, e = .ok a ∧ f a = .ok b := by
  cases e <;> simp [Except.bind]

theorem stepOk {α : Type} {c : Prop} [Decidable c] {o : Option α} {n : String}
    {fn : α → Stream} {s1 s2 : Stream} :
    (if c then (getAttr n o).map fn else .ok s1) = .ok s2 ↔
      ((c ∧ ∃ v, o = some v ∧ s2 = fn v) ∨ (¬c ∧ s2 = s1)) := by
  split
  · cases o <;> simp_all [getAttr, Except.map, eq_comm]
  · simp_all [eq_comm]

/-- C4 (amended): for `download_retry`, `download_timeout`, `validate_hash`
and `keep_zip`, `apply_default` copies the default only when the field was not
explicitly set, and never overwrites an explicitly set field, including
explicit false/zero values — presence decides.  For `split`, truthiness
decides: an explicitly supplied empty split is indistinguishable from unset
and is replaced by the default split.  Filling in `keep_zip` recomputes
`safe_keep_zip`. -/
theorem apply_default_presence (df s s' : Stream)
    (h : applyDefault df s = .ok s') :
    (∀ v, s._download_retry = some v → s'.download_retry = s.download_retry) ∧
      (s._download_retry = none → s'.download_retry = df.download_retry) ∧
      (∀ v, s._download_timeout = some v → s'.download_timeout = s.download_timeout) ∧
      (s._download_timeout = none → s'.download_timeout = df.download_timeout) ∧
      (∀ v, s.validate_hash = some v → s'.validate_hash = some v) ∧
      (s.validate_hash = none → s'.validate_hash =
        (if strOptTruthy df.validate_hash then df.validate_hash else none)) ∧
      (∀ v, s._keep_zip = some v →
        s'.keep_zip = s.keep_zip ∧ s'.safe_keep_zip = s.safe_keep_zip) ∧
      (∀ kz, s._keep_zip = none → df.keep_zip = some kz →
        s'.keep_zip = some kz ∧
          s'.safe_keep_zip = some (safeKeepZip kz s.remote s.localRoot)) ∧
      (s.split ≠ "" → s'.split = s.split) ∧
      (s.split = "" → s'.split = df.split) := by
  unfold applyDefault at h
  split at h
  · cases h
  dsimp only at h
  rw [bindOk_iff] at h
  obtain ⟨s2, h2, h⟩ := h
  rw [bindOk_iff] at h
  obtain ⟨s3, h3, h⟩ := h
  rw [stepOk] at h2 h3 h
  by_cases hsp : s.split = ""
  · simp only [if_pos hsp] at h2
    rcases h2 with ⟨hc2, v2, hv2, rfl⟩ | ⟨hc2, rfl⟩ <;>
      rcases h3 with ⟨hc3, v3, hv3, rfl⟩ | ⟨hc3, rfl⟩ <;>
      rcases h with ⟨hc4, v4, hv4, rfl⟩ | ⟨hc4, rfl⟩ <;>
      (refine ⟨?_, ?_, ?_, ?_, ?_, ?_, ?_, ?_, ?_, ?_⟩ <;> intros <;>
        simp_all [safeKeepZip, apply_ite])
  · simp only [if_neg hsp] at h2
    rcases h2 with ⟨hc2, v2, hv2, rfl⟩ | ⟨hc2, rfl⟩ <;>
      rcases h3 with ⟨hc3, v3, hv3, rfl⟩ | ⟨hc3, rfl⟩ <;>
      rcases h with ⟨hc4, v4, hv4, rfl⟩ | ⟨hc4, rfl⟩ <;>
      (refine ⟨?_, ?_, ?_, ?_, ?_, ?_, ?_, ?_, ?_, ?_⟩ <;> intros <;>
        simp_all [safeKeepZip, apply_ite])

/-- Defaults object used by the C4 counterexample and witness. -/
def c4df : Stream :=
  { split := "train"
    download_retry := some 2
    download_timeout := some 60
    validate_hash := some "md5"
    keep_zip := some true }

/-- Constructor arguments with an explicitly supplied *empty* split. -/
def c4args : StreamArgs := { remote := some "s3://b", split := some "" }

/-- Counterexample to C4 as stated: the user explicitly sets `split=''`
(the field is present), yet `apply_default` overwrites it with the default
`'train'`, because the source tests `if not self.split:` — truthiness, not
presence, for this field. -/
theorem apply_default_split_truthiness :
    ((mkStream c4args "/t").bind (applyDefault c4df)).map (fun t => t.split) =
      .ok "train" := by
  rfl

/-- Fully explicit user stream (everything set) for the C4 witness. -/
def c4s : Stream :=
  { remote := some "r"
    localRoot := "/c"
    split := "tr"
    _download_retry := some 0
    download_retry := some 0
    _download_timeout := some 9
    download_timeout := some 9
    validate_hash := some "sha1"
    _keep_zip := some false
    keep_zip := some false
    safe_keep_zip := some false }

/-- Fully unset user stream for the C4 witness. -/
def c4unset : Stream := { remote := some "r", localRoot := "/c" }

/-- The result of defaulting `c4unset` with `c4df`. -/
def c4unsetAfter : Stream :=
  { remote := some "r"
    localRoot := "/c"
    split := "train"
    download_retry := some 2
    download_timeout := some 60
    validate_hash := some "md5"
    keep_zip := some true
    safe_keep_zip := some (safeKeepZip true (some "r") "/c") }

/-- Witness for C4 (amended): explicitly set zero-retry and false-keep_zip
survive defaulting; unset fields receive the default values. -/
theorem apply_default_presence_witness :
    (c4s.download_retry = c4s.download_retry ∧ c4s.keep_zip = c4s.keep_zip) ∧
      (c4unsetAfter.download_retry = c4df.download_retry ∧
        c4unsetAfter.keep_zip = some true) := by
  have h1 := apply_default_presence c4df c4s c4s rfl
  have h2 := apply_default_presence c4df c4unset c4unsetAfter rfl
  exact ⟨⟨h1.1 0 rfl, (h1.2.2.2.2.2.2.1 false rfl).1⟩,
    ⟨h2.2.1 rfl, (h2.2.2.2.2.2.2.2.1 true rfl rfl).1⟩⟩

/-! ### Lemmas about absolute weighting -/

instance {α β : Type} [DecidableEq α] [DecidableEq β] : DecidableEq (Except α β) := fun
  | .error e, .error f =>
    if h : e = f then .isTrue (congrArg Except.error h)
    else .isFalse (fun hc => h ((Except.error.injEq _ _).mp hc))
  | .error _, .ok _ => .isFalse (fun hc => Except.noConfusion hc)
  | .ok _, .error _ => .isFalse (fun hc => Except.noConfusion hc)
  | .ok a, .ok b =>
    if h : a = b then .isTrue (congrArg Except.ok h)
    else .isFalse (fun hc => h ((Except.ok.injEq _ _).mp hc))

theorem ratTrunc_eq_floor {q : ℚ} (h : 0 ≤ q) : ratTrunc q = ⌊q⌋ := by
  simp [ratTrunc, h]

/-- The per-stream pick of the absolute branch as the code computes it
(`int(repeat * count)` truncation). -/
def absPick (s : Stream) (c : ℤ) : ℤ :=
  match s.repeat_ with
  | some r => ratTrunc (r * (c : ℚ))
  | none =>
    match s.samples with
    | some v => v
    | none => c

/-- The per-stream pick as the spec words it: `floor(repeat * count)` when
Repeat is set, the Samples value when Samples is set, the underlying count
otherwise. -/
def absPickFloor (s : Stream) (c : ℤ) : ℤ :=
  match s.repeat_ with
  | some r => ⌊r * (c : ℚ)⌋
  | none =>
    match s.samples with
    | some v => v
    | none => c

theorem absPicks_eq : ∀ (ss : List Stream) (cs : List ℤ), ss.length ≤ cs.length →
    absPicks ss cs = .ok (List.zipWith absPick ss cs) := by
  intro ss
  induction ss with
  | nil => intro cs _; rfl
  | cons a ss ih =>
    intro cs hlen
    cases cs with
    | nil => simp at hlen
    | cons c cs =>
      simp only [absPicks, List.zipWith_cons_cons]
      rw [ih cs (by simpa using hlen)]
      rfl

theorem zipWith_absPick_floor : ∀ (ss : List Stream) (cs : List ℤ),
    (∀ s ∈ ss, ∀ r, s.repeat_ = some r → 0 ≤ r) → (∀ c ∈ cs, 0 ≤ c) →
    List.zipWith absPick ss cs = List.zipWith absPickFloor ss cs := by
  intro ss
  induction ss with
  | nil => intro cs _ _; rfl
  | cons a ss ih =>
    intro cs hr hc
    cases cs with
    | nil => rfl
    | cons c cs =>
      simp only [List.zipWith_cons_cons]
      have h1 : absPick a c = absPickFloor a c := by
        unfold absPick absPickFloor
        cases ha : a.repeat_ with
        | none => rfl
        | some r =>
          have hr1 : (0 : ℚ) ≤ r := hr a (by simp) r ha
          have hc1 : (0 : ℤ) ≤ c := hc c (by simp)
          exact ratTrunc_eq_floor (mul_nonneg hr1 (by exact_mod_cast hc1))
      rw [h1, ih cs (fun s hs => hr s (List.mem_cons_of_mem a hs))
        (fun x hx => hc x (List.mem_cons_of_mem c hx))]

theorem resolvedPicks_writeBack : ∀ (ss : List Stream) (ps rs : List ℚ) (ks : List ℤ),
    ps.length = ss.length → rs.length = ss.length → ks.length = ss.length →
    resolvedPicks (writeBack ss ps rs ks) = ks := by
  intro ss
  induction ss with
  | nil =>
    intro ps rs ks _ _ hk
    cases ks with
    | nil => rfl
    | cons k ks => simp at hk
  | cons a ss ih =>
    intro ps rs ks hp hr hk
    cases ps with
    | nil => simp at hp
    | cons p ps =>
      cases rs with
      | nil => simp at hr
      | cons r rs =>
        cases ks with
        | nil => simp at hk
        | cons k ks =>
          simp only [writeBack, resolvedPicks, List.filterMap_cons]
          exact congrArg (fun l => k :: l)
            (ih ps rs ks (by simpa using hp) (by simpa using hr) (by simpa using hk))

theorem writeBack_map_repeat : ∀ (ss : List Stream) (ps rs : List ℚ) (ks : List ℤ),
    ps.length = ss.length → rs.length = ss.length → ks.length = ss.length →
    (writeBack ss ps rs ks).map (fun t => t.repeat_) = rs.map some := by
  intro ss
  induction ss with
  | nil =>
    intro ps rs ks _ hr _
    cases rs with
    | nil => rfl
    | cons r rs => simp at hr
  | cons a ss ih =>
    intro ps rs ks hp hr hk
    cases ps with
    | nil => simp at hp
    | cons p ps =>
      cases rs with
      | nil => simp at hr
      | cons r rs =>
        cases ks with
        | nil => simp at hk
        | cons k ks =>
          simp only [writeBack, List.map_cons]
          rw [ih ps rs ks (by simpa using hp) (by simpa using hr) (by simpa using hk)]

theorem validateWeights_ok_absolute {streams : List Stream}
    (hne : streams ≠ [])
    (habs : ∀ s ∈ streams, hasProp s = false ∧ weightCount s ≤ 1) :
    validateWeights streams = .ok false := by
  cases streams with
  | nil => exact absurd rfl hne
  | cons a l =>
    have ha : hasProp a = false := (habs a (by simp)).1
    simp only [validateWeights, ha, bind, Except.bind]
    rw [validateWeightsGo_ok_of_uniform (fun s hs => ⟨(habs s hs).1, (habs s hs).2⟩)]
    rfl

/-- Concrete absolute-weighted streams for C3 (the spec's own example:
Repeat=2 with 50 underlying samples, and an unweighted stream with 20). -/
def c3A : Stream := { repeat_ := some 2 }

/-- Second concrete stream for C3 (no weighting attribute). -/
def c3B : Stream := {}

/-- A choice collaborator that is never consulted by the absolute branch. -/
def chNone : Nat → Nat → Nat → List Nat := fun _ _ _ => []

/-- A stream with an explicit Samples pick, for the C3 counterexample. -/
def c3S : Stream := { samples := some 100 }

/-- Counterexample to C3 as stated: under absolute weighting the claim says
`apply_weights` fails *whenever* a target epoch size was explicitly supplied,
but the source tests `if samples_per_epoch:` — truthiness — so an explicitly
supplied `samples_per_epoch=0` is treated like `None` and the call succeeds. -/
theorem absolute_zero_epoch_not_rejected :
    (applyWeights chNone 7 [c3S, c3B] [50, 20] (some 0)).map
      (fun r => (resolvedPicks r.1, r.2)) = .ok ([100, 20], 120) := by
  decide

/-- C3 (amended): under absolute weighting (no stream carries a proportion),
`apply_weights` fails whenever a *truthy* (nonzero) target epoch size was
supplied — a supplied value of 0 is treated like `None`; otherwise each
stream's pick is `floor(repeat * count)` if Repeat is set, the Samples value
if Samples is set, and the underlying count if neither, and the returned
epoch size equals the sum of all picks. -/
theorem absolute_weighting (choice : Nat → Nat → Nat → List Nat) (seed : Nat)
    (streams : List Stream) (counts : List ℤ) (spe : Option ℤ)
    (hne : streams ≠ [])
    (habs : ∀ s ∈ streams, hasProp s = false ∧ weightCount s ≤ 1)
    (hlen : counts.length = streams.length)
    (hrep : ∀ s ∈ streams, ∀ r, s.repeat_ = some r → 0 ≤ r)
    (hcnt : ∀ c ∈ counts, 0 ≤ c) :
    (intOptTruthy spe = true →
      applyWeights choice seed streams counts spe =
        .error (.valueError "Only provide samples_per_epoch when proportionally weighting")) ∧
      (intOptTruthy spe = false →
        ∃ streams', applyWeights choice seed streams counts spe =
            .ok (streams', (List.zipWith absPickFloor streams counts).sum) ∧
          resolvedPicks streams' = List.zipWith absPickFloor streams counts) := by
  have hval := validateWeights_ok_absolute hne habs
  have hpk := absPicks_eq streams counts (by omega)
  have hflo := zipWith_absPick_floor streams counts hrep hcnt
  constructor
  · intro ht
    simp only [applyWeights, hval, Except.bind, Bool.false_eq_true, if_false, ht, if_true]
  · intro hf
    simp only [applyWeights, hval, Except.bind, Bool.false_eq_true, if_false, hf]
    rw [hpk]
    simp only [Except.bind]
    rw [hflo]
    set picks := List.zipWith absPickFloor streams counts with hpicks
    have hlp : picks.length = streams.length := by
      rw [hpicks, List.length_zipWith]
      omega
    refine ⟨_, rfl, ?_⟩
    exact resolvedPicks_writeBack streams _ _ picks
      (by rw [List.length_map]; exact hlp)
      (by rw [List.length_zipWith]; omega) hlp

/-- Witness for C3 (amended), on the spec's example: picks [100, 20],
epoch 120; and a truthy supplied epoch size fails. -/
theorem absolute_weighting_witness :
    (applyWeights chNone 7 [c3A, c3B] [50, 20] (some 99) =
      .error (.valueError "Only provide samples_per_epoch when proportionally weighting")) ∧
      ∃ streams', applyWeights chNone 7 [c3A, c3B] [50, 20] none =
          .ok (streams', (List.zipWith absPickFloor [c3A, c3B] [50, 20]).sum) ∧
        resolvedPicks streams' = List.zipWith absPickFloor [c3A, c3B] [50, 20] := by
  have hrep : ∀ s ∈ [c3A, c3B], ∀ r, s.repeat_ = some r → 0 ≤ r := by
    intro s hs r hr
    rcases List.mem_cons.mp hs with rfl | hs2
    · rw [show c3A.repeat_ = some (2 : ℚ) from rfl] at hr
      injection hr with h
      rw [← h]
      norm_num
    · rcases List.mem_cons.mp hs2 with rfl | hs3
      · exact absurd hr (by simp [c3B])
      · cases hs3
  have h1 := absolute_weighting chNone 7 [c3A, c3B] [50, 20] (some 99)
    (by decide) (by decide) (by decide) hrep (by decide)
  have h2 := absolute_weighting chNone 7 [c3A, c3B] [50, 20] none
    (by decide) (by decide) (by decide) hrep (by decide)
  exact ⟨h1.1 (by decide), h2.2 (by decide)⟩

/-! ### Lemmas about relative weighting -/

theorem listSumMapMul (c : ℚ) (l : List ℚ) :
    (l.map (fun q => c * q)).sum = c * l.sum := by
  induction l with
  | nil => simp
  | cons a l ih => simp [ih, mul_add]

theorem listSumMapDiv (c : ℚ) (l : List ℚ) :
    (l.map (fun p => p / c)).sum = l.sum / c := by
  induction l with
  | nil => simp
  | cons a l ih => simp [ih, add_div]

theorem sum_floor_le_sum (l : List ℚ) :
    (((l.map (fun q => ⌊q⌋)).sum : ℤ) : ℚ) ≤ l.sum := by
  induction l with
  | nil => simp
  | cons a l ih =>
    simp only [List.map_cons, List.sum_cons]
    push_cast
    exact add_le_add (Int.floor_le a) (by exact_mod_cast ih)

theorem sum_sub_card_lt_sum_floor (l : List ℚ) (hne : l ≠ []) :
    l.sum - l.length < (((l.map (fun q => ⌊q⌋)).sum : ℤ) : ℚ) := by
  induction l with
  | nil => exact absurd rfl hne
  | cons a l ih =>
    cases l with
    | nil =>
      simp only [List.map_cons, List.map_nil, List.sum_cons, List.sum_nil,
        List.length_cons, List.length_nil]
      push_cast
      linarith [Int.sub_one_lt_floor a]
    | cons b m =>
      have h1 := Int.sub_one_lt_floor a
      have h2 := ih (by simp)
      simp only [List.map_cons, List.sum_cons, List.length_cons] at h2 ⊢
      push_cast at h2 ⊢
      linarith

theorem bumpFrom_length (idxs : List Nat) :
    ∀ (l : List ℤ) (i : Nat), (bumpFrom idxs i l).length = l.length := by
  intro l
  induction l with
  | nil => intro i; rfl
  | cons v vs ih => intro i; simp [bumpFrom, ih]

theorem bumpFrom_sum (idxs : List Nat) :
    ∀ (l : List ℤ) (i : Nat),
      (bumpFrom idxs i l).sum =
        l.sum + ((List.range' i l.length).filter (fun j => decide (j ∈ idxs))).length := by
  intro l
  induction l with
  | nil => intro i; simp [bumpFrom]
  | cons v vs ih =>
    intro i
    rw [bumpFrom, List.sum_cons, List.length_cons, List.range'_succ,
      List.filter_cons, ih (i + 1)]
    by_cases hi : i ∈ idxs
    · rw [if_pos (by simp [hi]), if_pos (show decide (i ∈ idxs) = true by simp [hi])]
      simp only [List.length_cons, List.sum_cons]
      push_cast
      ring
    · rw [if_neg (by simp [hi]), if_neg (show ¬decide (i ∈ idxs) = true by simp [hi])]
      simp only [List.sum_cons]
      ring

theorem range_filter_mem_length {idxs : List Nat} {n : Nat} (hnd : idxs.Nodup)
    (hlt : ∀ j ∈ idxs, j < n) :
    ((List.range n).filter (fun j => decide (j ∈ idxs))).length = idxs.length := by
  have h1 : ((List.range n).filter (fun j => decide (j ∈ idxs))).Nodup :=
    (List.nodup_range n).filter _
  have h2 : ((List.range n).filter (fun j => decide (j ∈ idxs))).toFinset =
      idxs.toFinset := by
    ext j
    simp only [List.mem_toFinset, List.mem_filter, List.mem_range, decide_eq_true_eq]
    exact ⟨fun h => h.2, fun h => ⟨hlt j h, h⟩⟩
  calc ((List.range n).filter (fun j => decide (j ∈ idxs))).length
      = ((List.range n).filter (fun j => decide (j ∈ idxs))).toFinset.card :=
        (List.toFinset_card_of_nodup h1).symm
    _ = idxs.toFinset.card := by rw [h2]
    _ = idxs.length := List.toFinset_card_of_nodup hnd

theorem bumpPicks_sum {idxs : List Nat} {l : List ℤ} (hnd : idxs.Nodup)
    (hlt : ∀ j ∈ idxs, j < l.length) :
    (bumpPicks idxs l).sum = l.sum + idxs.length := by
  rw [bumpPicks, bumpFrom_sum idxs l 0, ← List.range_eq_range',
    range_filter_mem_length hnd hlt]

theorem validateWeights_ok_relative {streams : List Stream}
    (hne : streams ≠ [])
    (hrel : ∀ s ∈ streams, hasProp s = true ∧ weightCount s ≤ 1) :
    validateWeights streams = .ok true := by
  cases streams with
  | nil => exact absurd rfl hne
  | cons a l =>
    have ha : hasProp a = true := (hrel a (by simp)).1
    simp only [validateWeights, ha, bind, Except.bind]
    rw [validateWeightsGo_ok_of_uniform (fun s hs => ⟨(hrel s hs).1, (hrel s hs).2⟩)]
    rfl

theorem listMapCongr {α β : Type} {f g : α → β} :
    ∀ l : List α, (∀ a ∈ l, f a = g a) → l.map f = l.map g := by
  intro l
  induction l with
  | nil => intro _; rfl
  | cons a l ih =>
    intro h
    simp only [List.map_cons, h a (by simp)]
    rw [ih (fun x hx => h x (List.mem_cons_of_mem a hx))]

/-- C1: under relative weighting with a positive supplied target, the ideal
pick of each stream is `floor(t * normalized_proportion)`, the deficit
`d = t - sum(floors)` distinct indices returned by the seeded choice
collaborator each get one extra pick, the resolved picks sum to exactly the
target (which is also the returned epoch size), and each stream's
repeat-factor is its pick divided by its underlying count. -/
theorem relative_picks_sum_eq_target (choice : Nat → Nat → Nat → List Nat) (seed : Nat)
    (streams : List Stream) (counts : List ℤ) (t : ℤ)
    (hne : streams ≠ [])
    (hrel : ∀ s ∈ streams, hasProp s = true ∧ weightCount s ≤ 1)
    (hlen : counts.length = streams.length)
    (ht : 0 < t)
    (hp : ∀ s ∈ streams, ∀ q, s.proportion = some q → 0 ≤ q)
    (hsum : 0 < (streamProps streams).sum)
    (hch : ∀ k, k ≤ streams.length →
      (choice seed streams.length k).Nodup ∧
        (choice seed streams.length k).length = k ∧
        ∀ i ∈ choice seed streams.length k, i < streams.length) :
    ∃ streams',
      applyWeights choice seed streams counts (some t) = .ok (streams', t) ∧
        resolvedPicks streams' =
          bumpPicks (choice seed streams.length (t - (idealPicks t streams).sum).toNat)
            (idealPicks t streams) ∧
        (resolvedPicks streams').sum = t ∧
        streams'.map (fun s => s.repeat_) =
          ((resolvedPicks streams').zipWith
            (fun (k c : ℤ) => (k : ℚ) / (c : ℚ)) counts).map some := by
  have hval : validateWeights streams = .ok true := validateWeights_ok_relative hne hrel
  -- nonnegativity of the (normalized) proportions
  have hprops0 : ∀ p ∈ streamProps streams, 0 ≤ p := by
    intro p hp2
    obtain ⟨s, hs, hps⟩ := List.mem_map.mp hp2
    cases hq : s.proportion with
    | none => rw [← hps, hq]; simp
    | some q =>
      rw [← hps, hq]
      exact hp s hs q hq
  have hq0 : ∀ q ∈ normProps streams, 0 ≤ q := by
    intro q hq2
    obtain ⟨p, hp2, hpq⟩ := List.mem_map.mp hq2
    rw [← hpq]
    exact div_nonneg (hprops0 p hp2) (le_of_lt hsum)
  -- the code's truncation agrees with the spec's floor
  have hPC : codePicks t streams = idealPicks t streams := by
    unfold codePicks idealPicks
    exact listMapCongr _ (fun q hq => ratTrunc_eq_floor
      (mul_nonneg (by exact_mod_cast le_of_lt ht) (hq0 q hq)))
  -- the normalized proportions sum to 1
  have hnorm1 : (normProps streams).sum = 1 := by
    unfold normProps
    rw [listSumMapDiv]
    exact div_self (ne_of_gt hsum)
  set P := idealPicks t streams with hP
  -- the scaled list sums to t
  set l : List ℚ := (normProps streams).map (fun q => (t : ℚ) * q) with hl
  have hlsum : l.sum = (t : ℚ) := by
    rw [hl, listSumMapMul, hnorm1, mul_one]
  have hPl : P = l.map (fun q => ⌊q⌋) := by
    rw [hP, hl, List.map_map]
    rfl
  have hnlen : (normProps streams).length = streams.length := by
    simp [normProps, streamProps]
  have hllen : l.length = streams.length := by
    rw [hl, List.length_map, hnlen]
  have hPlen : P.length = streams.length := by
    rw [hPl, List.length_map, hllen]
  -- bounds on the deficit
  have hle : P.sum ≤ t := by
    have h := sum_floor_le_sum l
    rw [hlsum] at h
    rw [hPl]
    exact_mod_cast h
  have hgt : t - (streams.length : ℤ) < P.sum := by
    have hlne : l ≠ [] := by
      intro hc
      have h0 : l.length = 0 := by rw [hc]; rfl
      rw [hllen] at h0
      cases streams with
      | nil => exact hne rfl
      | cons a m => cases h0
    have h := sum_sub_card_lt_sum_floor l hlne
    rw [hlsum, hllen] at h
    rw [hPl]
    exact_mod_cast h
  set short : ℤ := t - P.sum with hshort
  have hshort0 : 0 ≤ short := by omega
  have hguard : ¬(short < 0 ∨ (streams.length : ℤ) < short) := by omega
  obtain ⟨hnd, hclen, hbnd⟩ := hch short.toNat (by omega)
  set idxs := choice seed streams.length short.toNat with hidxs
  set picks := bumpPicks idxs P with hpicks
  have hpsum : picks.sum = t := by
    rw [hpicks, bumpPicks_sum hnd (fun j hj => by rw [hPlen]; exact hbnd j hj), hclen]
    have h := Int.toNat_of_nonneg hshort0
    omega
  have hplen2 : picks.length = streams.length := by
    rw [hpicks, bumpPicks, bumpFrom_length, hPlen]
  have htt : intOptTruthy (some t) = true := by
    simp [intOptTruthy]
    omega
  have happly : applyWeights choice seed streams counts (some t) =
      .ok (writeBack streams (normProps streams)
        (picks.zipWith (fun (k c : ℤ) => (k : ℚ) / (c : ℚ)) counts) picks, t) := by
    simp only [applyWeights, hval, Except.bind, if_true, htt, Option.getD_some, hPC]
    rw [← hshort, ← hidxs, ← hpicks, if_neg hguard]
  have hres : resolvedPicks (writeBack streams (normProps streams)
      (picks.zipWith (fun (k c : ℤ) => (k : ℚ) / (c : ℚ)) counts) picks) = picks :=
    resolvedPicks_writeBack streams _ _ picks hnlen
      (by rw [List.length_zipWith]; omega) hplen2
  refine ⟨_, happly, hres, ?_, ?_⟩
  · rw [hres]
    exact hpsum
  · rw [hres]
    exact writeBack_map_repeat streams _ _ picks hnlen
      (by rw [List.length_zipWith]; omega) hplen2

/-- Relative stream with proportion 1/4 for the C1 witness. -/
def rA : Stream := { proportion := some (1/4 : ℚ) }

/-- Relative stream with proportion 3/4 for the C1 witness. -/
def rB : Stream := { proportion := some (3/4 : ℚ) }

/-- A choice collaborator returning the first `k` indices: distinct and in
range, as numpy's `choice(n, k, False)` guarantees. -/
def chRange : Nat → Nat → Nat → List Nat := fun _ _ k => List.range k

/-- Witness for C1 on the spec's example: proportions [1/4, 3/4], counts
[100, 300], target 41 succeeds with resolved picks summing to exactly 41. -/
theorem relative_picks_sum_eq_target_witness :
    ∃ streams', applyWeights chRange 7 [rA, rB] [100, 300] (some 41) =
        .ok (streams', 41) ∧ (resolvedPicks streams').sum = 41 := by
  have hp : ∀ s ∈ [rA, rB], ∀ q, s.proportion = some q → 0 ≤ q := by
    intro s hs q hq
    rcases List.mem_cons.mp hs with rfl | hs2
    · rw [show rA.proportion = some (1/4 : ℚ) from rfl] at hq
      injection hq with h
      rw [← h]
      norm_num
    · rcases List.mem_cons.mp hs2 with rfl | hs3
      · rw [show rB.proportion = some (3/4 : ℚ) from rfl] at hq
        injection hq with h
        rw [← h]
        norm_num
      · cases hs3
  have hsum : 0 < (streamProps [rA, rB]).sum := by
    norm_num [streamProps, rA, rB]
  have hch : ∀ k, k ≤ ([rA, rB] : List Stream).length →
      (chRange 7 ([rA, rB] : List Stream).length k).Nodup ∧
        (chRange 7 ([rA, rB] : List Stream).length k).length = k ∧
        ∀ i ∈ chRange 7 ([rA, rB] : List Stream).length k,
          i < ([rA, rB] : List Stream).length := by
    intro k hk
    exact ⟨List.nodup_range k, List.length_range k,
      fun i hi => lt_of_lt_of_le (List.mem_range.mp hi) hk⟩
  obtain ⟨streams', h1, h2, h3, h4⟩ := relative_picks_sum_eq_target chRange 7
    [rA, rB] [100, 300] 41 (by simp) (by decide) (by decide) (by decide)
    hp hsum hch
  exact ⟨streams', h1, h3⟩

end Streaming
